import Mathlib

/-!
Verification of the `ArrayString` fixed-capacity string buffer
(`src/array_string.rs`) against its natural-language specification.

Shallow embedding conventions:
* The backing array `A` (trait `Array<Item = u8>`) is modelled by a
  `List Nat` of bytes together with its compile-time capacity `cap`.
  `mem::uninitialized()` in `new_array` is modelled by letting the caller
  of `new` pass an arbitrary `junk` list: the bytes of a fresh buffer are
  unspecified.
* `usize` arithmetic is `Nat` with an explicit `% 2 ^ 64` where the source
  performs machine addition (the capacity check and the new-length
  computation in `push_str`).  Rust guarantees that any real slice or
  array occupies at most `isize::MAX = 2 ^ 63 - 1` bytes, so theorems
  about real executions carry `≤ isizeMax` bounds on capacities and
  input lengths; the overflow claim drops those bounds.
* Fallible methods return an `Except` result paired with the post state;
  the error branch of `push_str` is an early return, so it pairs the
  error with the unchanged input state, exactly as the source mutates
  nothing before `return Err(...)`.
* `(&mut sl[self.len()..]).write(s.as_bytes())` uses the `io::Write`
  instance for byte slices, which copies `min(data.len(), dest.len())`
  bytes and returns `Ok` of that count, so the `.unwrap()` never panics;
  the model copies exactly that many bytes.
* `set_len`'s `debug_assert!(length <= capacity)` is commented where it
  is provably satisfied on the paths that call it.
-/

deriving instance DecidableEq for Except

/-- Number of values of `usize` (64-bit). -/
def usizeSize : Nat := 2 ^ 64

/-- Largest byte count any Rust object (array, slice, `str`) may have:
`isize::MAX`. -/
def isizeMax : Nat := 2 ^ 63 - 1

/-- `CapacityError<T>`: the capacity-overflow error carrier, holding the
rejected element. -/
structure CapacityError (α : Type) where
  element : α
  deriving DecidableEq, Repr

/-- `fmt::Error`: the content-less formatting error. -/
inductive FmtError : Type where
  | error : FmtError
  deriving DecidableEq, Repr

/-- The state of an `ArrayString<A>`: capacity `A::capacity()`, the raw
bytes of the backing array `xs`, and the tracked length `len`. -/
structure ArrayString where
  cap : Nat
  xs : List Nat
  len : Nat
  deriving DecidableEq, Repr

namespace ArrayString

/-- `ArrayString::new()`: length zero; the backing array comes from
`new_array()` (`mem::uninitialized()`), so its bytes `junk` are arbitrary
and supplied by the environment. -/
def new (cap : Nat) (junk : List Nat) : ArrayString :=
  { cap := cap, xs := junk, len := 0 }

/-- `capacity()`: returns `A::capacity()`. -/
def capacity (a : ArrayString) : Nat := a.cap

/-- The borrowed text view `Deref::deref` exposes: the bytes
`storage[0 .. length]` (reinterpreted as `str` with no re-validation). -/
def contents (a : ArrayString) : List Nat := a.xs.take a.len

/-- `push_str`: capacity check `self.len() + s.len() > self.capacity()`
in `usize` arithmetic, early `Err(CapacityError::new(s))` return, then a
byte copy through `io::Write` on the tail slice `sl[len ..]` (which
writes `min(s.len(), cap - len)` bytes), and `set_len(len + s.len())`
(again `usize` addition).  The `debug_assert` inside `set_len` holds
here: the stored length equals the checked quantity, which the guard
bounded by `cap`. -/
def push_str (a : ArrayString) (s : List Nat) :
    Except (CapacityError (List Nat)) Unit × ArrayString :=
  if (a.len + s.length) % usizeSize > a.cap then
    (Except.error ⟨s⟩, a)
  else
    let written := min s.length (a.cap - a.len)
    (Except.ok (),
      { cap := a.cap
        xs := a.xs.take a.len ++ s.take written ++ a.xs.drop (a.len + written)
        len := (a.len + s.length) % usizeSize })

/-- `fmt::Write::write_str`: funnels the fragment through `push_str`,
degrading any capacity error to the content-less `fmt::Error`. -/
def write_str (a : ArrayString) (s : List Nat) :
    Except FmtError Unit × ArrayString :=
  match push_str a s with
  | (Except.ok u, a1) => (Except.ok u, a1)
  | (Except.error _, a1) => (Except.error FmtError.error, a1)

/-- UTF-8 encoding of one character (1–4 bytes), as `char::encode_utf8`
produces for `fmt::Write::write_char`. -/
def utf8EncodeChar (c : Char) : List Nat :=
  if c.toNat < 0x80 then [c.toNat]
  else if c.toNat < 0x800 then
    [0xC0 + c.toNat / 0x40, 0x80 + c.toNat % 0x40]
  else if c.toNat < 0x10000 then
    [0xE0 + c.toNat / 0x1000, 0x80 + c.toNat / 0x40 % 0x40, 0x80 + c.toNat % 0x40]
  else
    [0xF0 + c.toNat / 0x40000, 0x80 + c.toNat / 0x1000 % 0x40,
      0x80 + c.toNat / 0x40 % 0x40, 0x80 + c.toNat % 0x40]

/-- `push(c)`: the source calls the default `fmt::Write::write_char`,
which encodes `c` to UTF-8 and calls `write_str`; a formatting failure is
mapped back to `CapacityError::new(c)`. -/
def push (a : ArrayString) (c : Char) :
    Except (CapacityError Char) Unit × ArrayString :=
  match write_str a (utf8EncodeChar c) with
  | (Except.ok u, a1) => (Except.ok u, a1)
  | (Except.error _, a1) => (Except.error ⟨c⟩, a1)

/-- `clear()`: `set_len(0)`; storage bytes are not erased. -/
def clear (a : ArrayString) : ArrayString :=
  { a with len := 0 }

end ArrayString

open ArrayString

/-- The byte sequence of a UTF-8 string given by its characters (`&str`
inputs are valid UTF-8 by construction, so they are lists of chars). -/
def utf8Str : List Char → List Nat
  | [] => []
  | c :: cs => utf8EncodeChar c ++ utf8Str cs

/-- A byte list is valid UTF-8 iff it is the encoding of some character
sequence. -/
def Utf8Valid (l : List Nat) : Prop :=
  ∃ cs : List Char, utf8Str cs = l

/-- One call of the safe mutating API.  `pushStr` carries the characters
of the argument string (a `&str` is valid UTF-8 by construction). -/
inductive Op : Type where
  | pushChar : Char → Op
  | pushStr : List Char → Op
  | clearOp : Op
  deriving DecidableEq, Repr

/-- The observable return value of one call. -/
inductive Obs : Type where
  | charRes : Except (CapacityError Char) Unit → Obs
  | strRes : Except (CapacityError (List Nat)) Unit → Obs
  | unitRes : Obs
  deriving DecidableEq, Repr

/-- Execute one call, returning its result and the post state. -/
def stepOp (a : ArrayString) : Op → Obs × ArrayString
  | Op.pushChar c => let r := push a c; (Obs.charRes r.1, r.2)
  | Op.pushStr cs => let r := push_str a (utf8Str cs); (Obs.strRes r.1, r.2)
  | Op.clearOp => (Obs.unitRes, clear a)

/-- The post state of one call (results discarded). -/
def applyOp (a : ArrayString) (op : Op) : ArrayString :=
  (stepOp a op).2

/-- Run a call sequence, collecting every call's result and the final
state. -/
def runTrace (a : ArrayString) : List Op → List Obs × ArrayString
  | [] => ([], a)
  | op :: ops =>
    let r := stepOp a op
    let rest := runTrace r.2 ops
    (r.1 :: rest.1, rest.2)

/-- Run a call sequence for its final state. -/
def runOps (a : ArrayString) (ops : List Op) : ArrayString :=
  ops.foldl applyOp a

/-- A real Rust call: the argument of `push_str` is a `&str`, whose byte
length never exceeds `isize::MAX`. -/
def OpValid : Op → Prop
  | Op.pushStr cs => (utf8Str cs).length ≤ isizeMax
  | _ => True

/-- Structural well-formedness: the backing list really has `cap` bytes
and the tracked length is in bounds. -/
def WF (a : ArrayString) : Prop :=
  a.xs.length = a.cap ∧ a.len ≤ a.cap

section Lemmas

/-- The encoding of a character is 1 to 4 bytes. -/
theorem utf8EncodeChar_length_pos (c : Char) : 1 ≤ (utf8EncodeChar c).length := by
  unfold utf8EncodeChar
  split
  · simp
  · split
    · simp
    · split <;> simp

/-- The encoding of a character is at most 4 bytes. -/
theorem utf8EncodeChar_length_le (c : Char) : (utf8EncodeChar c).length ≤ 4 := by
  unfold utf8EncodeChar
  split
  · simp
  · split
    · simp
    · split <;> simp

/-- Encoding a concatenation concatenates the encodings. -/
theorem utf8Str_append (cs ds : List Char) :
    utf8Str (cs ++ ds) = utf8Str cs ++ utf8Str ds := by
  induction cs with
  | nil => simp [utf8Str]
  | cons c cs ih => simp [utf8Str, ih]

/-- The empty byte list is valid UTF-8. -/
theorem utf8Valid_nil : Utf8Valid [] := ⟨[], rfl⟩

/-- Encodings are valid UTF-8. -/
theorem utf8Valid_utf8Str (cs : List Char) : Utf8Valid (utf8Str cs) := ⟨cs, rfl⟩

/-- Concatenating valid UTF-8 byte lists gives valid UTF-8. -/
theorem utf8Valid_append {l₁ l₂ : List Nat} (h₁ : Utf8Valid l₁)
    (h₂ : Utf8Valid l₂) : Utf8Valid (l₁ ++ l₂) := by
  obtain ⟨cs, hcs⟩ := h₁
  obtain ⟨ds, hds⟩ := h₂
  exact ⟨cs ++ ds, by rw [utf8Str_append, hcs, hds]⟩

/-- In-range sums are not changed by the `usize` reduction. -/
theorem usize_mod_id {n : Nat} (h : n ≤ 2 * isizeMax) : n % usizeSize = n := by
  apply Nat.mod_eq_of_lt
  unfold isizeMax at h
  unfold usizeSize
  omega

/-- `push_str` on the overflowing side: with real-Rust bounds on the
capacity and the input length, the checked sum does not wrap, so the
guard fires and the call returns the error carrying `s` with the state
untouched. -/
theorem push_str_err (a : ArrayString) (s : List Nat)
    (hlen : a.len ≤ a.cap) (hcap : a.cap ≤ isizeMax) (hs : s.length ≤ isizeMax)
    (h : a.cap < a.len + s.length) :
    push_str a s = (Except.error ⟨s⟩, a) := by
  unfold push_str
  rw [usize_mod_id (by omega)]
  rw [if_pos h]

/-- `push_str` on the fitting side: the guard passes, all of `s` is
written right after the current contents, and the length grows by
`s.length`. -/
theorem push_str_ok (a : ArrayString) (s : List Nat)
    (hcap : a.cap < usizeSize) (hfit : a.len + s.length ≤ a.cap) :
    push_str a s =
      (Except.ok (),
        { cap := a.cap
          xs := a.xs.take a.len ++ s ++ a.xs.drop (a.len + s.length)
          len := a.len + s.length }) := by
  have hmod : (a.len + s.length) % usizeSize = a.len + s.length :=
    Nat.mod_eq_of_lt (lt_of_le_of_lt hfit hcap)
  have hw : min s.length (a.cap - a.len) = s.length := by omega
  unfold push_str
  rw [hmod, if_neg (by omega)]
  simp only [hw, List.take_of_length_le (le_refl s.length)]

/-- On a fitting `push_str`, the text view grows by exactly `s`. -/
theorem contents_push_str_ok (a : ArrayString) (s : List Nat)
    (hxs : a.xs.length = a.cap) (hcap : a.cap < usizeSize)
    (hfit : a.len + s.length ≤ a.cap) :
    contents (push_str a s).2 = contents a ++ s := by
  rw [push_str_ok a s hcap hfit]
  unfold contents
  dsimp only
  have hA : (a.xs.take a.len).length = a.len := by
    rw [List.length_take]
    omega
  exact List.take_left' (by simp [hA])

/-- A fitting `push_str` keeps the backing list at `cap` bytes. -/
theorem wf_push_str_ok (a : ArrayString) (s : List Nat) (hwf : WF a)
    (hcap : a.cap < usizeSize) (hfit : a.len + s.length ≤ a.cap) :
    WF (push_str a s).2 := by
  obtain ⟨hxs, hlen⟩ := hwf
  rw [push_str_ok a s hcap hfit]
  dsimp only [WF]
  constructor
  · simp [List.length_take, List.length_drop, hxs]
    omega
  · exact hfit

/-- `isize::MAX` is below the wrap-around modulus. -/
theorem isizeMax_lt_usizeSize : isizeMax < usizeSize := by
  unfold isizeMax usizeSize
  omega

/-- `write_str` is `push_str` with the error degraded to `fmt::Error`. -/
theorem write_str_eq (a : ArrayString) (s : List Nat) :
    write_str a s =
      ((push_str a s).1.mapError fun _ => FmtError.error, (push_str a s).2) := by
  unfold write_str
  rcases h : push_str a s with ⟨r, a1⟩
  cases r <;> simp [Except.mapError]

/-- `push` is `push_str` of the character's encoding with the error
replaced by the capacity error carrying the character. -/
theorem push_eq (a : ArrayString) (c : Char) :
    push a c =
      ((push_str a (utf8EncodeChar c)).1.mapError fun _ => CapacityError.mk c,
        (push_str a (utf8EncodeChar c)).2) := by
  unfold push
  rw [write_str_eq]
  rcases h : push_str a (utf8EncodeChar c) with ⟨r, a1⟩
  cases r <;> simp [Except.mapError]

/-- `push_str` never changes the capacity. -/
theorem push_str_cap (a : ArrayString) (s : List Nat) :
    (push_str a s).2.cap = a.cap := by
  unfold push_str
  split <;> rfl

end Lemmas

-- Spec §6 usage contracts, checked on the model by evaluation.
example : utf8EncodeChar 'a' = [97] := by decide
example : push_str (new 2 [0, 0]) (utf8Str ['a']) =
    (Except.ok (), ⟨2, [97, 0], 1⟩) := by decide
example : (push_str (new 2 [0, 0]) (utf8Str ['a', 'b', 'c'])).1 =
    Except.error ⟨[97, 98, 99]⟩ := by decide
example : utf8EncodeChar '€' = [0xE2, 0x82, 0xAC] := by decide
example :
    (runTrace (new 2 [0, 0]) [Op.pushChar 'a', Op.pushChar 'b', Op.pushChar 'c']).1 =
      [Obs.charRes (Except.ok ()), Obs.charRes (Except.ok ()),
        Obs.charRes (Except.error ⟨'c'⟩)] := by decide
example : contents (runOps (new 2 [0, 0]) [Op.pushChar 'a', Op.pushChar 'b', Op.pushChar 'c']) =
    [97, 98] := by decide
example :
    (runTrace (new 2 [0, 0]) [Op.pushStr ['a'], Op.pushStr ['b', 'c'],
      Op.pushStr ['d'], Op.pushStr ['e', 'f']]).1 =
      [Obs.strRes (Except.ok ()), Obs.strRes (Except.error ⟨[98, 99]⟩),
        Obs.strRes (Except.ok ()), Obs.strRes (Except.error ⟨[101, 102]⟩)] ∧
    contents (runTrace (new 2 [0, 0]) [Op.pushStr ['a'], Op.pushStr ['b', 'c'],
      Op.pushStr ['d'], Op.pushStr ['e', 'f']]).2 = [97, 100] := by decide

/-- Claim C2: for every buffer and every valid UTF-8 string `s` of byte
length `n`, if `length + n > capacity` then `push_str s` returns a
capacity-overflow error carrying the entire rejected string `s`, and the
buffer's content and length are byte-for-byte identical to before the
call (no partial copy).  The bounds `≤ isizeMax` state that the buffer
and the string are real Rust values. -/
theorem push_str_overflow_rejects_whole (a : ArrayString) (cs : List Char)
    (hlen : a.len ≤ a.capacity) (hcap : a.capacity ≤ isizeMax)
    (hs : (utf8Str cs).length ≤ isizeMax)
    (hover : a.capacity < a.len + (utf8Str cs).length) :
    push_str a (utf8Str cs) = (Except.error ⟨utf8Str cs⟩, a) :=
  push_str_err a (utf8Str cs) hlen hcap hs hover

/-- Claim C2 witness: content "a" in a capacity-2 buffer rejects "bc"
unchanged. -/
theorem push_str_overflow_rejects_whole_witness :
    ((ArrayString.mk 2 [97, 0] 1).len ≤ (ArrayString.mk 2 [97, 0] 1).capacity ∧
      (ArrayString.mk 2 [97, 0] 1).capacity ≤ isizeMax ∧
      (utf8Str ['b', 'c']).length ≤ isizeMax ∧
      (ArrayString.mk 2 [97, 0] 1).capacity < 1 + (utf8Str ['b', 'c']).length) ∧
    push_str (ArrayString.mk 2 [97, 0] 1) (utf8Str ['b', 'c']) =
      (Except.error ⟨utf8Str ['b', 'c']⟩, ArrayString.mk 2 [97, 0] 1) :=
  ⟨⟨by decide, by decide, by decide, by decide⟩,
    push_str_overflow_rejects_whole (ArrayString.mk 2 [97, 0] 1) ['b', 'c']
      (by decide) (by decide) (by decide) (by decide)⟩

/-- Claim C3: for every buffer and every valid UTF-8 string `s` of byte
length `n` with `length + n ≤ capacity`, `push_str s` succeeds, the `n`
bytes of `s` are copied into `storage[length .. length + n]`, the text
view becomes the old content followed by `s`, and the length grows by
exactly `n`. -/
theorem push_str_success_appends (a : ArrayString) (cs : List Char)
    (hxs : a.xs.length = a.capacity) (hcap : a.capacity ≤ isizeMax)
    (hfit : a.len + (utf8Str cs).length ≤ a.capacity) :
    (push_str a (utf8Str cs)).1 = Except.ok () ∧
    (push_str a (utf8Str cs)).2.xs =
      a.xs.take a.len ++ utf8Str cs ++ a.xs.drop (a.len + (utf8Str cs).length) ∧
    (push_str a (utf8Str cs)).2.len = a.len + (utf8Str cs).length ∧
    contents (push_str a (utf8Str cs)).2 = contents a ++ utf8Str cs := by
  have hcap2 : a.cap < usizeSize := lt_of_le_of_lt hcap isizeMax_lt_usizeSize
  refine ⟨?_, ?_, ?_, contents_push_str_ok a (utf8Str cs) hxs hcap2 hfit⟩ <;>
    rw [push_str_ok a (utf8Str cs) hcap2 hfit]

/-- Claim C3 witness: the spec scenario, `append_str "foo"` into a
capacity-16 buffer. -/
theorem push_str_success_appends_witness :
    ((new 16 (List.replicate 16 7)).xs.length = (new 16 (List.replicate 16 7)).capacity ∧
      (new 16 (List.replicate 16 7)).capacity ≤ isizeMax ∧
      (new 16 (List.replicate 16 7)).len + (utf8Str ['f', 'o', 'o']).length ≤
        (new 16 (List.replicate 16 7)).capacity) ∧
    (push_str (new 16 (List.replicate 16 7)) (utf8Str ['f', 'o', 'o'])).1 = Except.ok () ∧
    (push_str (new 16 (List.replicate 16 7)) (utf8Str ['f', 'o', 'o'])).2.xs =
      (new 16 (List.replicate 16 7)).xs.take 0 ++ utf8Str ['f', 'o', 'o'] ++
        (new 16 (List.replicate 16 7)).xs.drop (0 + (utf8Str ['f', 'o', 'o']).length) ∧
    (push_str (new 16 (List.replicate 16 7)) (utf8Str ['f', 'o', 'o'])).2.len =
      0 + (utf8Str ['f', 'o', 'o']).length ∧
    contents (push_str (new 16 (List.replicate 16 7)) (utf8Str ['f', 'o', 'o'])).2 =
      contents (new 16 (List.replicate 16 7)) ++ utf8Str ['f', 'o', 'o'] :=
  ⟨⟨by decide, by decide, by decide⟩,
    push_str_success_appends (new 16 (List.replicate 16 7)) ['f', 'o', 'o']
      (by decide) (by decide) (by decide)⟩

/-- Claim C4: for every buffer and character `c`, if `length` plus the
1–4 byte UTF-8 encoded size of `c` exceeds the capacity, `push c`
returns a capacity-overflow error carrying exactly `c` and leaves the
buffer unchanged; otherwise it succeeds, appending the encoding of `c`
and growing the length by its encoded byte count. -/
theorem push_char_spec (a : ArrayString) (c : Char)
    (hxs : a.xs.length = a.capacity) (hlen : a.len ≤ a.capacity)
    (hcap : a.capacity ≤ isizeMax) :
    (1 ≤ (utf8EncodeChar c).length ∧ (utf8EncodeChar c).length ≤ 4) ∧
    (a.capacity < a.len + (utf8EncodeChar c).length →
      push a c = (Except.error ⟨c⟩, a)) ∧
    (a.len + (utf8EncodeChar c).length ≤ a.capacity →
      (push a c).1 = Except.ok () ∧
      contents (push a c).2 = contents a ++ utf8EncodeChar c ∧
      (push a c).2.len = a.len + (utf8EncodeChar c).length) := by
  have hcap2 : a.cap < usizeSize := lt_of_le_of_lt hcap isizeMax_lt_usizeSize
  have hsmax : (utf8EncodeChar c).length ≤ isizeMax :=
    le_trans (utf8EncodeChar_length_le c) (by unfold isizeMax; omega)
  refine ⟨⟨utf8EncodeChar_length_pos c, utf8EncodeChar_length_le c⟩, ?_, ?_⟩
  · intro hover
    rw [push_eq, push_str_err a (utf8EncodeChar c) hlen hcap hsmax hover]
    rfl
  · intro hfit
    have h1 := push_str_ok a (utf8EncodeChar c) hcap2 hfit
    have h2 := contents_push_str_ok a (utf8EncodeChar c) hxs hcap2 hfit
    rw [push_eq]
    refine ⟨?_, ?_, ?_⟩
    · rw [h1]
      rfl
    · dsimp only
      exact h2
    · rw [h1]

/-- Claim C4 witness: the spec scenario at capacity 2 with content "ab":
`push 'c'` fails carrying `'c'`; and from content "a", `push 'b'`
succeeds. -/
theorem push_char_spec_witness :
    ((ArrayString.mk 2 [97, 98] 2).xs.length = (ArrayString.mk 2 [97, 98] 2).capacity ∧
      (ArrayString.mk 2 [97, 98] 2).len ≤ (ArrayString.mk 2 [97, 98] 2).capacity ∧
      (ArrayString.mk 2 [97, 98] 2).capacity ≤ isizeMax ∧
      (ArrayString.mk 2 [97, 98] 2).capacity < 2 + (utf8EncodeChar 'c').length) ∧
    push (ArrayString.mk 2 [97, 98] 2) 'c' =
      (Except.error ⟨'c'⟩, ArrayString.mk 2 [97, 98] 2) ∧
    (2 + (utf8EncodeChar 'b').length ≤ 4 ∧
      (push (ArrayString.mk 4 [97, 0, 0, 0] 1) 'b').1 = Except.ok () ∧
      contents (push (ArrayString.mk 4 [97, 0, 0, 0] 1) 'b').2 =
        contents (ArrayString.mk 4 [97, 0, 0, 0] 1) ++ utf8EncodeChar 'b') :=
  ⟨⟨by decide, by decide, by decide, by decide⟩,
    (push_char_spec (ArrayString.mk 2 [97, 98] 2) 'c'
        (by decide) (by decide) (by decide)).2.1 (by decide),
    by decide,
    ((push_char_spec (ArrayString.mk 4 [97, 0, 0, 0] 1) 'b'
        (by decide) (by decide) (by decide)).2.2 (by decide)).1,
    ((push_char_spec (ArrayString.mk 4 [97, 0, 0, 0] 1) 'b'
        (by decide) (by decide) (by decide)).2.2 (by decide)).2.1⟩

/-- Claim C5: `push c` is observationally equivalent to `push_str` on
the UTF-8 encoding of `c`, routed through the formatted-write path
(`write_char` → `write_str` → `push_str`): same success/failure outcome,
same resulting buffer state, and a formatting-layer failure translated
back into the capacity error carrying the original character `c`. -/
theorem push_refines_push_str (a : ArrayString) (c : Char) :
    push a c =
      ((push_str a (utf8EncodeChar c)).1.mapError fun _ => CapacityError.mk c,
        (push_str a (utf8EncodeChar c)).2) ∧
    push a c =
      ((write_str a (utf8EncodeChar c)).1.mapError fun _ => CapacityError.mk c,
        (write_str a (utf8EncodeChar c)).2) := by
  refine ⟨push_eq a c, ?_⟩
  rw [push_eq, write_str_eq]
  rcases (push_str a (utf8EncodeChar c)).1 with e | u <;> simp [Except.mapError]

/-- Claim C6: the formatted-write entry point `write_str` funnels every
fragment through `push_str`; on success its effect on the buffer is
identical to `push_str`, and when the fragment does not fit it fails
with the generic formatting error, a value of the content-less type
`FmtError` that preserves neither the rejected fragment nor the
capacity-overflow detail. -/
theorem write_str_funnels_push_str (a : ArrayString) (s : List Nat) :
    write_str a s =
      ((push_str a s).1.mapError fun _ => FmtError.error, (push_str a s).2) ∧
    (∀ e₁ e₂ : FmtError, e₁ = e₂) := by
  refine ⟨write_str_eq a s, ?_⟩
  intro e₁ e₂
  cases e₁
  cases e₂
  rfl

/-- Claim C8: in any state, `clear` (which only zeroes the length,
leaving the storage bytes in place) followed by `push_str s` with
`s.length ≤ capacity` succeeds and yields content exactly `s`,
independent of the prior content. -/
theorem clear_then_push_str (a : ArrayString) (cs : List Char)
    (hcap : a.capacity ≤ isizeMax)
    (hfit : (utf8Str cs).length ≤ a.capacity) :
    (push_str (clear a) (utf8Str cs)).1 = Except.ok () ∧
    contents (push_str (clear a) (utf8Str cs)).2 = utf8Str cs := by
  have hcap2 : (clear a).cap < usizeSize := lt_of_le_of_lt hcap isizeMax_lt_usizeSize
  have hfit2 : (clear a).len + (utf8Str cs).length ≤ (clear a).cap := by
    simpa [clear] using hfit
  rw [push_str_ok (clear a) (utf8Str cs) hcap2 hfit2]
  refine ⟨rfl, ?_⟩
  unfold contents clear
  dsimp only
  simp only [List.take_zero, List.nil_append, Nat.zero_add]
  exact List.take_left' rfl

/-- Claim C8 witness: clearing a full capacity-3 buffer "abc" and
appending "xy" yields exactly "xy". -/
theorem clear_then_push_str_witness :
    ((ArrayString.mk 3 [97, 98, 99] 3).capacity ≤ isizeMax ∧
      (utf8Str ['x', 'y']).length ≤ (ArrayString.mk 3 [97, 98, 99] 3).capacity) ∧
    (push_str (clear (ArrayString.mk 3 [97, 98, 99] 3)) (utf8Str ['x', 'y'])).1 =
      Except.ok () ∧
    contents (push_str (clear (ArrayString.mk 3 [97, 98, 99] 3)) (utf8Str ['x', 'y'])).2 =
      utf8Str ['x', 'y'] :=
  ⟨⟨by decide, by decide⟩,
    (clear_then_push_str (ArrayString.mk 3 [97, 98, 99] 3) ['x', 'y']
        (by decide) (by decide)).1,
    (clear_then_push_str (ArrayString.mk 3 [97, 98, 99] 3) ['x', 'y']
        (by decide) (by decide)).2⟩

/-- Two fitting `push_str` calls compose to a single call on the
concatenation. -/
theorem push_str_push_str (a : ArrayString) (s t : List Nat)
    (hxs : a.xs.length = a.cap) (hcap : a.cap < usizeSize)
    (hfit : a.len + s.length + t.length ≤ a.cap) :
    (push_str (push_str a s).2 t).2 = (push_str a (s ++ t)).2 := by
  have h1 : a.len + s.length ≤ a.cap := by omega
  have hA : (a.xs.take a.len).length = a.len := by
    rw [List.length_take]; omega
  have hAs : (a.xs.take a.len ++ s).length = a.len + s.length := by
    simp [hA]
  rw [push_str_ok a s hcap h1]
  dsimp only
  rw [push_str_ok
    { cap := a.cap
      xs := a.xs.take a.len ++ s ++ a.xs.drop (a.len + s.length)
      len := a.len + s.length } t hcap (by dsimp only; omega)]
  rw [push_str_ok a (s ++ t) hcap (by rw [List.length_append]; omega)]
  dsimp only
  have hXt : (a.xs.take a.len ++ s ++ a.xs.drop (a.len + s.length)).take
      (a.len + s.length) = a.xs.take a.len ++ s :=
    List.take_left' hAs
  have hXd : (a.xs.take a.len ++ s ++ a.xs.drop (a.len + s.length)).drop
      (a.len + s.length + t.length) = a.xs.drop (a.len + s.length + t.length) := by
    rw [show a.len + s.length + t.length =
        (a.xs.take a.len ++ s).length + t.length by rw [hAs]]
    rw [List.drop_append, List.drop_drop, hAs]
  rw [hXt, hXd]
  simp [List.length_append, List.append_assoc, Nat.add_assoc]

/-- Pushing a list of characters one at a time (states threaded through,
results discarded). -/
def pushList (a : ArrayString) (cs : List Char) : ArrayString :=
  cs.foldl (fun b c => (push b c).2) a

/-- Auxiliary induction for Claim C7, with the raw capacity bound. -/
theorem pushList_eq_aux (cs : List Char) :
    ∀ a : ArrayString, a.xs.length = a.cap → a.cap < usizeSize →
      a.len + (utf8Str cs).length ≤ a.cap →
      pushList a cs = (push_str a (utf8Str cs)).2 := by
  induction cs with
  | nil =>
    intro a hxs hcap hfit
    obtain ⟨cap, xs, len⟩ := a
    rw [push_str_ok _ _ hcap (by simpa [utf8Str] using hfit)]
    simp [pushList, utf8Str, List.take_append_drop]
  | cons c cs ih =>
    intro a hxs hcap hfit
    have hn : (utf8Str (c :: cs)).length =
        (utf8EncodeChar c).length + (utf8Str cs).length := by
      simp [utf8Str]
    rw [hn] at hfit
    have hfit1 : a.len + (utf8EncodeChar c).length ≤ a.cap := by omega
    have hok := push_str_ok a (utf8EncodeChar c) hcap hfit1
    have hwf1 := wf_push_str_ok a (utf8EncodeChar c) ⟨hxs, by omega⟩ hcap hfit1
    rw [hok] at hwf1
    have hcomp := push_str_push_str a (utf8EncodeChar c) (utf8Str cs) hxs hcap (by omega)
    rw [hok] at hcomp
    have hunf : pushList a (c :: cs) = pushList (push a c).2 cs := rfl
    have hstep : (push a c).2 = (push_str a (utf8EncodeChar c)).2 := by rw [push_eq]
    rw [hunf, hstep, hok]
    dsimp only at hwf1 ⊢
    rw [ih _ hwf1.1 (by dsimp only; exact hcap) (by dsimp only; omega)]
    rw [hcomp]
    rfl

/-- Claim C7: pushing characters `c₁ … cₖ` one at a time with `push`
yields the same final buffer (hence the same content) as a single
`push_str` of the concatenation of their UTF-8 encodings, whenever that
single `push_str` would succeed from the starting state. -/
theorem push_chars_eq_push_str_concat (a : ArrayString) (cs : List Char)
    (hxs : a.xs.length = a.capacity) (hcap : a.capacity ≤ isizeMax)
    (hfit : a.len + (utf8Str cs).length ≤ a.capacity) :
    pushList a cs = (push_str a (utf8Str cs)).2 ∧
    contents (pushList a cs) = contents (push_str a (utf8Str cs)).2 := by
  have h := pushList_eq_aux cs a hxs
    (lt_of_le_of_lt hcap isizeMax_lt_usizeSize) hfit
  exact ⟨h, by rw [h]⟩

/-- Claim C7 witness: pushing 'a','b','c' into a capacity-4 buffer
equals one `push_str "abc"`. -/
theorem push_chars_eq_push_str_concat_witness :
    ((new 4 [9, 9, 9, 9]).xs.length = (new 4 [9, 9, 9, 9]).capacity ∧
      (new 4 [9, 9, 9, 9]).capacity ≤ isizeMax ∧
      (new 4 [9, 9, 9, 9]).len + (utf8Str ['a', 'b', 'c']).length ≤
        (new 4 [9, 9, 9, 9]).capacity) ∧
    pushList (new 4 [9, 9, 9, 9]) ['a', 'b', 'c'] =
      (push_str (new 4 [9, 9, 9, 9]) (utf8Str ['a', 'b', 'c'])).2 :=
  ⟨⟨by decide, by decide, by decide⟩,
    (push_chars_eq_push_str_concat (new 4 [9, 9, 9, 9]) ['a', 'b', 'c']
        (by decide) (by decide) (by decide)).1⟩

/-- The safe-API invariant: structural well-formedness plus UTF-8
validity of the text view. -/
def GoodState (a : ArrayString) : Prop :=
  WF a ∧ Utf8Valid (contents a)

/-- `OpValid` is decidable (used to evaluate witnesses). -/
instance : ∀ op : Op, Decidable (OpValid op)
  | Op.pushChar _ => isTrue trivial
  | Op.pushStr _ => Nat.decLe _ _
  | Op.clearOp => isTrue trivial

/-- `push_str` with a valid-UTF-8, Rust-representable argument keeps the
invariant, on both the fitting and the overflowing side. -/
theorem goodState_push_str {a : ArrayString} (s : List Nat)
    (hg : GoodState a) (hcap : a.cap ≤ isizeMax) (hs : s.length ≤ isizeMax)
    (hv : Utf8Valid s) :
    GoodState (push_str a s).2 := by
  obtain ⟨⟨hxs, hlen⟩, hval⟩ := hg
  have hcap2 : a.cap < usizeSize := lt_of_le_of_lt hcap isizeMax_lt_usizeSize
  by_cases hfit : a.len + s.length ≤ a.cap
  · refine ⟨wf_push_str_ok a s ⟨hxs, hlen⟩ hcap2 hfit, ?_⟩
    rw [contents_push_str_ok a s hxs hcap2 hfit]
    exact utf8Valid_append hval hv
  · rw [push_str_err a s hlen hcap hs (by omega)]
    exact ⟨⟨hxs, hlen⟩, hval⟩

/-- Every safe operation keeps the invariant. -/
theorem goodState_applyOp {a : ArrayString} (op : Op)
    (hg : GoodState a) (hcap : a.cap ≤ isizeMax) (hop : OpValid op) :
    GoodState (applyOp a op) := by
  cases op with
  | pushChar c =>
    have h : applyOp a (Op.pushChar c) = (push_str a (utf8EncodeChar c)).2 := by
      show (push a c).2 = _
      rw [push_eq]
    rw [h]
    refine goodState_push_str (utf8EncodeChar c) ⟨hg.1, hg.2⟩ hcap ?_ ?_
    · exact le_trans (utf8EncodeChar_length_le c) (by unfold isizeMax; omega)
    · exact ⟨[c], by simp [utf8Str]⟩
  | pushStr cs =>
    exact goodState_push_str (utf8Str cs) hg hcap hop (utf8Valid_utf8Str cs)
  | clearOp =>
    refine ⟨⟨hg.1.1, Nat.zero_le _⟩, ⟨[], ?_⟩⟩
    show utf8Str [] = contents (clear a)
    simp [utf8Str, contents, clear]

/-- No safe operation changes the capacity. -/
theorem applyOp_cap (a : ArrayString) (op : Op) : (applyOp a op).cap = a.cap := by
  cases op with
  | pushChar c =>
    show (push a c).2.cap = a.cap
    rw [push_eq]
    exact push_str_cap a (utf8EncodeChar c)
  | pushStr cs => exact push_str_cap a (utf8Str cs)
  | clearOp => rfl

/-- Running any sequence of valid calls keeps the invariant and the
capacity. -/
theorem runOps_good (ops : List Op) :
    ∀ a : ArrayString, GoodState a → a.cap ≤ isizeMax →
      (∀ op ∈ ops, OpValid op) →
      GoodState (runOps a ops) ∧ (runOps a ops).cap = a.cap := by
  induction ops with
  | nil =>
    intro a hg _ _
    exact ⟨hg, rfl⟩
  | cons op ops ih =>
    intro a hg hcap hops
    have h1 := goodState_applyOp op hg hcap (hops op (List.mem_cons_self op ops))
    have hc := applyOp_cap a op
    have h2 := ih (applyOp a op) h1 (by rw [hc]; exact hcap)
      (fun o ho => hops o (List.mem_cons_of_mem op ho))
    have hr : runOps a (op :: ops) = runOps (applyOp a op) ops := rfl
    rw [hr]
    exact ⟨h2.1, by rw [h2.2, hc]⟩

/-- Claim C1: every buffer state reachable from a freshly created buffer
via any sequence of the safe operations (`new`, `push`, `push_str`,
`clear`) has `length ≤ capacity`, and the bytes `storage[0 .. length]`
form a valid UTF-8 sequence, so the read-as-text view is a well-formed
string. -/
theorem reachable_states_invariant (cap : Nat) (junk : List Nat) (ops : List Op)
    (hjunk : junk.length = cap) (hcap : cap ≤ isizeMax)
    (hops : ∀ op ∈ ops, OpValid op) :
    (runOps (new cap junk) ops).len ≤ (runOps (new cap junk) ops).capacity ∧
    Utf8Valid (contents (runOps (new cap junk) ops)) := by
  have hg : GoodState (new cap junk) :=
    ⟨⟨hjunk, Nat.zero_le _⟩, ⟨[], by simp [utf8Str, contents, new]⟩⟩
  have h := runOps_good ops (new cap junk) hg hcap hops
  exact ⟨h.1.1.2, h.1.2⟩

/-- Claim C1 witness: a mixed call sequence on a capacity-2 buffer with
junk initial bytes. -/
theorem reachable_states_invariant_witness :
    ((List.replicate 2 255).length = 2 ∧ 2 ≤ isizeMax ∧
      (∀ op ∈ [Op.pushChar 'a', Op.pushStr ['b', 'c'], Op.clearOp,
        Op.pushStr ['x']], OpValid op)) ∧
    ((runOps (new 2 (List.replicate 2 255)) [Op.pushChar 'a',
        Op.pushStr ['b', 'c'], Op.clearOp, Op.pushStr ['x']]).len ≤
      (runOps (new 2 (List.replicate 2 255)) [Op.pushChar 'a',
        Op.pushStr ['b', 'c'], Op.clearOp, Op.pushStr ['x']]).capacity ∧
      Utf8Valid (contents (runOps (new 2 (List.replicate 2 255)) [Op.pushChar 'a',
        Op.pushStr ['b', 'c'], Op.clearOp, Op.pushStr ['x']]))) :=
  ⟨⟨by decide, by decide, by decide⟩,
    reachable_states_invariant 2 (List.replicate 2 255)
      [Op.pushChar 'a', Op.pushStr ['b', 'c'], Op.clearOp, Op.pushStr ['x']]
      (by decide) (by decide) (by decide)⟩

/-- Low-equivalence of two buffer states: same capacity and length,
well-formed, same text view; the bytes at and beyond `len` (the
uninitialized region) may differ arbitrarily. -/
def StateSim (a b : ArrayString) : Prop :=
  a.cap = b.cap ∧ a.len = b.len ∧ a.len ≤ a.cap ∧
  a.xs.length = a.cap ∧ b.xs.length = b.cap ∧ contents a = contents b

/-- When the (possibly wrapped) guard fires, `push_str` is exactly the
error early-return. -/
theorem push_str_guard_err (a : ArrayString) (s : List Nat)
    (hg : (a.len + s.length) % usizeSize > a.cap) :
    push_str a s = (Except.error ⟨s⟩, a) := by
  unfold push_str
  rw [if_pos hg]

/-- When the guard passes, the call reports success. -/
theorem push_str_pass_fst (a : ArrayString) (s : List Nat)
    (hg : ¬(a.len + s.length) % usizeSize > a.cap) :
    (push_str a s).1 = Except.ok () := by
  unfold push_str
  rw [if_neg hg]

/-- When the guard passes, the new length is the wrapped sum. -/
theorem push_str_pass_len (a : ArrayString) (s : List Nat)
    (hg : ¬(a.len + s.length) % usizeSize > a.cap) :
    (push_str a s).2.len = (a.len + s.length) % usizeSize := by
  unfold push_str
  rw [if_neg hg]

/-- When the guard passes, the backing list keeps its `cap` bytes. -/
theorem push_str_pass_xs_length (a : ArrayString) (s : List Nat)
    (hlc : a.len ≤ a.cap) (hxa : a.xs.length = a.cap)
    (hg : ¬(a.len + s.length) % usizeSize > a.cap) :
    (push_str a s).2.xs.length = a.cap := by
  unfold push_str
  rw [if_neg hg]
  dsimp only
  rw [List.length_append, List.length_append, List.length_take,
    List.length_take, List.length_drop, hxa]
  omega

/-- When the guard passes, the new text view is computed from the old
text view, the argument, the length and the capacity only — never from
the junk bytes beyond `len`. -/
theorem contents_push_str_pass (a : ArrayString) (s : List Nat)
    (hlc : a.len ≤ a.cap) (hxa : a.xs.length = a.cap)
    (hg : ¬(a.len + s.length) % usizeSize > a.cap) :
    contents (push_str a s).2 =
      (contents a ++ s.take (min s.length (a.cap - a.len))).take
        ((a.len + s.length) % usizeSize) := by
  have hlen1 : (a.xs.take a.len ++ s.take (min s.length (a.cap - a.len))).length
      = a.len + min s.length (a.cap - a.len) := by
    rw [List.length_append, List.length_take, List.length_take, hxa]
    omega
  have hn : (a.len + s.length) % usizeSize ≤
      a.len + min s.length (a.cap - a.len) := by
    rcases Nat.le_total s.length (a.cap - a.len) with h1 | h1
    · rw [Nat.min_eq_left h1]
      exact Nat.mod_le _ _
    · rw [Nat.min_eq_right h1]
      have := Nat.le_of_not_lt hg
      omega
  unfold contents push_str
  rw [if_neg hg]
  dsimp only
  exact List.take_append_of_le_length (by rw [hlen1]; exact hn)

/-- `push_str` returns identical results and low-equivalent states on
low-equivalent states, for arbitrary arguments (wrap-inducing ones
included): the written prefix never reads the junk region. -/
theorem push_str_sim {a b : ArrayString} (s : List Nat) (h : StateSim a b) :
    (push_str a s).1 = (push_str b s).1 ∧
    StateSim (push_str a s).2 (push_str b s).2 := by
  obtain ⟨hc, hl, hlc, hxa, hxb, hcon⟩ := h
  have hlcb : b.len ≤ b.cap := by rw [← hl, ← hc]; exact hlc
  by_cases hg : (a.len + s.length) % usizeSize > a.cap
  · have hgb : (b.len + s.length) % usizeSize > b.cap := by
      rw [← hl, ← hc]
      exact hg
    rw [push_str_guard_err a s hg, push_str_guard_err b s hgb]
    exact ⟨rfl, hc, hl, hlc, hxa, hxb, hcon⟩
  · have hgb : ¬(b.len + s.length) % usizeSize > b.cap := by
      rw [← hl, ← hc]
      exact hg
    refine ⟨?_, ?_, ?_, ?_, ?_, ?_, ?_⟩
    · rw [push_str_pass_fst a s hg, push_str_pass_fst b s hgb]
    · rw [push_str_cap, push_str_cap]
      exact hc
    · rw [push_str_pass_len a s hg, push_str_pass_len b s hgb, hl]
    · rw [push_str_pass_len a s hg, push_str_cap]
      exact Nat.le_of_not_lt hg
    · rw [push_str_pass_xs_length a s hlc hxa hg, push_str_cap]
    · rw [push_str_pass_xs_length b s hlcb hxb hgb, push_str_cap]
    · rw [contents_push_str_pass a s hlc hxa hg,
        contents_push_str_pass b s hlcb hxb hgb, hcon, ← hl, ← hc]

/-- Every safe call returns identical observations and keeps
low-equivalence. -/
theorem stepOp_sim {a b : ArrayString} (op : Op) (h : StateSim a b) :
    (stepOp a op).1 = (stepOp b op).1 ∧
    StateSim (stepOp a op).2 (stepOp b op).2 := by
  cases op with
  | pushStr cs =>
    have hs := push_str_sim (utf8Str cs) h
    exact ⟨congrArg Obs.strRes hs.1, hs.2⟩
  | pushChar c =>
    have hs := push_str_sim (utf8EncodeChar c) h
    constructor
    · show Obs.charRes (push a c).1 = Obs.charRes (push b c).1
      rw [push_eq a c, push_eq b c]
      dsimp only
      rw [hs.1]
    · show StateSim (push a c).2 (push b c).2
      rw [push_eq a c, push_eq b c]
      exact hs.2
  | clearOp =>
    obtain ⟨hc, hl, hlc, hxa, hxb, hcon⟩ := h
    refine ⟨rfl, hc, rfl, Nat.zero_le _, hxa, hxb, ?_⟩
    show contents (clear a) = contents (clear b)
    simp [contents, clear]

/-- Whole-trace noninterference, by induction over the call list. -/
theorem runTrace_sim (ops : List Op) :
    ∀ a b : ArrayString, StateSim a b →
      (runTrace a ops).1 = (runTrace b ops).1 ∧
      StateSim (runTrace a ops).2 (runTrace b ops).2 := by
  induction ops with
  | nil =>
    intro a b h
    exact ⟨rfl, h⟩
  | cons op ops ih =>
    intro a b h
    have h1 := stepOp_sim op h
    have h2 := ih (stepOp a op).2 (stepOp b op).2 h1.2
    constructor
    · show (stepOp a op).1 :: (runTrace (stepOp a op).2 ops).1 =
        (stepOp b op).1 :: (runTrace (stepOp b op).2 ops).1
      rw [h1.1, h2.1]
    · exact h2.2

/-- Claim C10: the observable text content and every call's result are
fully determined by the operation sequence and never by the
uninitialized storage: two fresh buffers of the same capacity, created
with arbitrary different junk bytes, give identical results from every
`push`/`push_str`/`clear` call of the same sequence and identical final
text views and lengths. -/
theorem junk_noninterference (cap : Nat) (j1 j2 : List Nat) (ops : List Op)
    (h1 : j1.length = cap) (h2 : j2.length = cap) :
    (runTrace (new cap j1) ops).1 = (runTrace (new cap j2) ops).1 ∧
    contents (runTrace (new cap j1) ops).2 =
      contents (runTrace (new cap j2) ops).2 ∧
    (runTrace (new cap j1) ops).2.len = (runTrace (new cap j2) ops).2.len := by
  have hsim : StateSim (new cap j1) (new cap j2) :=
    ⟨rfl, rfl, Nat.zero_le _, h1, h2, by simp [contents, new]⟩
  have h := runTrace_sim ops (new cap j1) (new cap j2) hsim
  exact ⟨h.1, h.2.2.2.2.2.2, h.2.2.1⟩

/-- Claim C10 witness: two capacity-2 buffers with different junk run
the same calls with identical observations and final views. -/
theorem junk_noninterference_witness :
    (([7, 8] : List Nat).length = 2 ∧ ([250, 251] : List Nat).length = 2) ∧
    ((runTrace (new 2 [7, 8]) [Op.pushChar 'a', Op.pushStr ['b', 'c']]).1 =
      (runTrace (new 2 [250, 251]) [Op.pushChar 'a', Op.pushStr ['b', 'c']]).1 ∧
    contents (runTrace (new 2 [7, 8]) [Op.pushChar 'a', Op.pushStr ['b', 'c']]).2 =
      contents (runTrace (new 2 [250, 251]) [Op.pushChar 'a', Op.pushStr ['b', 'c']]).2 ∧
    (runTrace (new 2 [7, 8]) [Op.pushChar 'a', Op.pushStr ['b', 'c']]).2.len =
      (runTrace (new 2 [250, 251]) [Op.pushChar 'a', Op.pushStr ['b', 'c']]).2.len) :=
  ⟨⟨by decide, by decide⟩,
    junk_noninterference 2 [7, 8] [250, 251]
      [Op.pushChar 'a', Op.pushStr ['b', 'c']] (by decide) (by decide)⟩

/-- A run of `n` copies of 'a' encodes to `n` bytes 97. -/
theorem utf8Str_replicate_a (n : Nat) :
    utf8Str (List.replicate n 'a') = List.replicate n 97 := by
  induction n with
  | zero => rfl
  | succ n ih =>
    have henc : utf8EncodeChar 'a' = [97] := by decide
    rw [List.replicate_succ, List.replicate_succ]
    show utf8EncodeChar 'a' ++ utf8Str (List.replicate n 'a') = _
    rw [henc, ih]
    rfl

/-- A reachable state with nonzero length: capacity 1, content "a". -/
def overflowState : ArrayString := runOps (new 1 [0]) [Op.pushChar 'a']

/-- A pathologically long but valid UTF-8 input: `usizeSize - 1` bytes,
the encoding of `usizeSize - 1` copies of 'a'.  (No real Rust `&str`
can be this long; the claim is about the latent arithmetic edge case.) -/
def hugeInput : List Nat := utf8Str (List.replicate (usizeSize - 1) 'a')

/-- Claim C9: on the reachable state with `length = 1` and a valid UTF-8
input of byte length `usizeSize - 1`, the capacity check's sum
`length + input_length` in `push_str` overflows the 64-bit size
arithmetic: the wrapped comparison misclassifies the append (the true
sum exceeds the capacity, yet the call returns success instead of a
capacity error, and the stored length wraps to 0). -/
theorem push_str_check_wraps :
    usizeSize ≤ overflowState.len + hugeInput.length ∧
    overflowState.capacity < overflowState.len + hugeInput.length ∧
    (push_str overflowState hugeInput).1 = Except.ok () ∧
    (push_str overflowState hugeInput).2.len = 0 := by
  have ha : overflowState = ArrayString.mk 1 [97] 1 := by decide
  have hs : hugeInput.length = usizeSize - 1 := by
    unfold hugeInput
    rw [utf8Str_replicate_a, List.length_replicate]
  have hU : 1 ≤ usizeSize := by
    unfold usizeSize
    omega
  have hmod : (1 + (usizeSize - 1)) % usizeSize = 0 := by
    rw [show 1 + (usizeSize - 1) = usizeSize by omega, Nat.mod_self]
  have hguard : ¬(overflowState.len + hugeInput.length) % usizeSize >
      overflowState.cap := by
    rw [ha, hs]
    show ¬(1 + (usizeSize - 1)) % usizeSize > 1
    rw [hmod]
    omega
  refine ⟨?_, ?_, ?_, ?_⟩
  · rw [ha, hs]
    show usizeSize ≤ 1 + (usizeSize - 1)
    omega
  · rw [ha, hs]
    show 1 < 1 + (usizeSize - 1)
    unfold usizeSize
    omega
  · exact push_str_pass_fst overflowState hugeInput hguard
  · rw [push_str_pass_len overflowState hugeInput hguard, ha, hs]
    show (1 + (usizeSize - 1)) % usizeSize = 0
    exact hmod

/-- Claim C5 witness: instantiation at a zero-capacity buffer, where the
formatting-layer failure is translated back into the capacity error
carrying 'q'. -/
theorem push_refines_push_str_witness :
    push (new 0 []) 'q' =
      ((push_str (new 0 []) (utf8EncodeChar 'q')).1.mapError fun _ =>
        CapacityError.mk 'q', (push_str (new 0 []) (utf8EncodeChar 'q')).2) ∧
    push (new 0 []) 'q' =
      ((write_str (new 0 []) (utf8EncodeChar 'q')).1.mapError fun _ =>
        CapacityError.mk 'q', (write_str (new 0 []) (utf8EncodeChar 'q')).2) :=
  push_refines_push_str (new 0 []) 'q'

/-- Claim C6 witness: instantiation at a capacity-1 buffer with a
two-byte fragment, which fails through the formatted-write path. -/
theorem write_str_funnels_push_str_witness :
    write_str (new 1 [0]) [120, 121] =
      ((push_str (new 1 [0]) [120, 121]).1.mapError fun _ => FmtError.error,
        (push_str (new 1 [0]) [120, 121]).2) ∧
    (∀ e₁ e₂ : FmtError, e₁ = e₂) :=
  write_str_funnels_push_str (new 1 [0]) [120, 121]
